import Mathlib

/-!
Verification development for the task scheduler in `pylaborate.basalt.__main__`.

Each definition below is a shallow embedding of a specific function of the
source file `src/pylaborate/basalt/__main__.py`; the source line numbers are
given in the doc comments.  Python futures are modelled by the four-state
`FutureState` cell, the Exception Ledger by an association list keyed by the
deduplication token, and the dependency-expansion generator by an explicit
fuel-indexed recursion that threads the mutable `state` list.
-/

set_option autoImplicit false

universe u

/-- Model of the state of a `concurrent.futures.Future` / `asyncio.Future`:
`pending`, finished with a result (`done`), finished with an exception
(`failed`), or `cancelled`.  `ρ` is the result type, `ε` the exception type. -/
inductive FutureState (ρ ε : Type u) where
  | pending
  | done (result : ρ)
  | failed (exc : ε)
  | cancelled
deriving DecidableEq

/-- `Future.done()`: true once the future is in any terminal state
(result, exception, or cancelled). -/
def FutureState.is_done {ρ ε : Type u} : FutureState ρ ε → Bool
  | .pending => false
  | _ => true

/-- `Future.cancelled()`: true only in the cancelled state. -/
def FutureState.is_cancelled {ρ ε : Type u} : FutureState ρ ε → Bool
  | .cancelled => true
  | _ => false

/-- `Future.exception()`: the stored exception of a future that finished with
an exception, else `none` (the code only calls this on non-cancelled futures). -/
def FutureState.exception_of {ρ ε : Type u} : FutureState ρ ε → Option ε
  | .failed e => some e
  | _ => none

/-- `Future.cancel()`: a pending future becomes cancelled; a future that is
already in a terminal state is unchanged (the call returns False). -/
def future_cancel {ρ ε : Type u} : FutureState ρ ε → FutureState ρ ε
  | .pending => .cancelled
  | s => s

/-- `TaskProxyBase.can_run` (`__main__.py` lines 251-260): `runnable` starts as
the negation of `exit_future.cancelled()`; if not runnable return False; then
for each declared dependency, if its `run_future.done()` the proxy is not
runnable.  Note the global future is tested with `cancelled()` and the
dependencies with `done()`. -/
def can_run {ρ ε : Type u} (exit_future : FutureState ρ ε)
    (dep_futures : List (FutureState ρ ε)) : Bool :=
  let runnable := !exit_future.is_cancelled
  if runnable = false then false
  else !(dep_futures.any (fun f => f.is_done))

/-- `TaskProxyBase.managed_context` (`__main__.py` lines 308-315): the task
body (the `yield`) is entered iff `exit_future.cancelled()` is false and
`run_future.cancelled()` is false. -/
def managed_context_enters {ρ ε : Type u} (exit_future run_future : FutureState ρ ε) : Bool :=
  !exit_future.is_cancelled && !run_future.is_cancelled

/-- Pointwise update of a task-name-indexed future table. -/
def set_fut {α : Type} [DecidableEq α] {ρ ε : Type u}
    (st : α → FutureState ρ ε) (x : α) (f : FutureState ρ ε) : α → FutureState ρ ε :=
  fun y => if y = x then f else st y

/-- `TaskProxyBase.cancel_rdeps` (`__main__.py` lines 262-275): for each task
name in `self.rdepends`, look the proxy up in the launch map and call
`run_future.cancel()` on it.  No recursive call is made. -/
def cancel_rdeps {α : Type} [DecidableEq α] {ρ ε : Type u}
    (rdeps : α → List α) (st : α → FutureState ρ ε) (p : α) : α → FutureState ρ ε :=
  (rdeps p).foldl (fun s r => set_fut s r (future_cancel (s r))) st

/-- `TaskProxyBase.cancel` (`__main__.py` lines 277-281):
`self.run_future.cancel()`, then, when the `cancel_rdeps` flag is set,
`self.cancel_rdeps()`. -/
def cancel {α : Type} [DecidableEq α] {ρ ε : Type u}
    (rdeps : α → List α) (st : α → FutureState ρ ε) (p : α) (cascade : Bool) :
    α → FutureState ρ ε :=
  let st1 := set_fut st p (future_cancel (st p))
  if cascade then cancel_rdeps rdeps st1 p else st1

/-- `Basalt.push_exception_info` (`__main__.py` lines 1297-1325): the Ledger is
a dict keyed by `hash((task, exc_type, exc_args))`; an entry is stored only if
the token is not yet a key.  `κ` models the token (the dedup triple), `ε` the
stored record `(task, exc_type, exc_args, tbk)`. -/
def push_exception_info {κ ε : Type} [DecidableEq κ]
    (emap : List (κ × ε)) (token : κ) (entry : ε) : List (κ × ε) :=
  if token ∈ emap.map Prod.fst then emap else emap ++ [(token, entry)]

/-- The option namespace fields of the `Basalt` instance that are relevant to
error escalation: `-k (continue)` (continue after erred tasks). -/
structure BasaltOptions where
  continue_after_error : Bool

/-- `Basalt.stop_on_exception` (`__main__.py` lines 1102-1103): the body is
literally `return True`; the instance's parsed options (in particular the
`-k (continue)` flag) are never consulted.  (In the source it is moreover a
plain method, so reading `receiver.stop_on_exception` as an attribute yields a
bound method object, which is always truthy.) -/
def Basalt.stop_on_exception (_self : BasaltOptions) : Bool :=
  true

/-- Error half of `SyncTaskProxy.launch_task` (`__main__.py` lines 497-504):
when the executor handle reports an exception `exc`, the proxy calls
`defer_exception` (recording the token in the Ledger), then, if
`stop_on_exception`, fails the global `exit_future` unless it is done, and
finally fails its own `run_future` unless it is done.  Returns the updated
(ledger, exit future, run future). -/
def SyncTaskProxy.on_executor_exception {κ εl ρ ε : Type} [DecidableEq κ]
    (opts : BasaltOptions) (ledger : List (κ × εl)) (token : κ) (entry : εl)
    (exit_future run_future : FutureState ρ ε) (exc : ε) :
    List (κ × εl) × FutureState ρ ε × FutureState ρ ε :=
  let ledger2 := push_exception_info ledger token entry
  let exit2 :=
    if Basalt.stop_on_exception opts then
      (if exit_future.is_done then exit_future else .failed exc)
    else exit_future
  let run2 := if run_future.is_done then run_future else .failed exc
  (ledger2, exit2, run2)

/-- Tail of `Basalt.amain` (`__main__.py` lines 1429-1433): if the exit future
is not yet done, its result is set to the number of recorded exceptions. -/
def amain_set_exit_result {ε : Type} (exit_future : FutureState Nat ε)
    (nr_exceptions : Nat) : FutureState Nat ε :=
  if exit_future.is_done then exit_future else .done nr_exceptions

/-- Tail of `Basalt.main` (`__main__.py` lines 1657-1710): reads the exit
future's exception (only when the future is done and not cancelled), starts
`rc` at 0 or 1, then iterates the Ledger; the loop body increments `rc`
(while `rc < 256`) and — because the `return rc` statement is indented inside
the `for` loop — returns after the FIRST entry.  With an empty Ledger the loop
never runs and `main` falls off the end, returning Python `None` (modelled as
`none`; `sys.exit(None)` then exits the process with status 0). -/
def main_exit_code {ε κ : Type} (exit_future : FutureState Nat ε) (ledger : List κ) :
    Option Nat :=
  let exc : Option ε :=
    if exit_future.is_done = false then none
    else if exit_future.is_cancelled = false then exit_future.exception_of
    else none
  let rc : Nat := if exc.isSome then 1 else 0
  match ledger with
  | [] => none
  | _ :: _ => some (if rc < 256 then rc + 1 else rc)

/-- One action visibly performed by `FutureManager.__exit__`. -/
inductive GuardAction where
  | logged_trace
  | future_exception_set
  | callback_invoked
deriving DecidableEq

/-- An error raised inside `FutureManager.__exit__` itself.  Both `except`
fallback paths evaluate `sys.exc_info` — the builtin function object, not a
call of it — with iterable unpacking (`*sys.exc_info` resp.
`etyp, eargs, tbk = sys.exc_info`), which raises `TypeError`. -/
inductive GuardErr where
  | type_error_exc_info
deriving DecidableEq

/-- `FutureManager.__exit__` (`__main__.py` lines 163-190).  Parameters model
the environment: whether the trace log call raises, whether an
`exception_callback` is present, the truthiness of `self.set_exception`,
whether the managed future is already done, whether `fut.set_exception`
raises, and whether `__exit__` received an exception.  The result is either a
new error propagating out of the guard, or the list of recording actions. -/
def futureManager_exit (log_raises has_cb set_exc_flag fut_done set_exc_raises
    exc_present : Bool) : Except GuardErr (List GuardAction) :=
  match (if log_raises then
          (if has_cb then Except.error GuardErr.type_error_exc_info
           else Except.ok ([] : List GuardAction))
         else Except.ok [GuardAction.logged_trace]) with
  | .error e => .error e
  | .ok acts1 =>
    if exc_present then
      match (if set_exc_flag then
              (if fut_done = false then
                (if set_exc_raises then Except.error GuardErr.type_error_exc_info
                 else Except.ok [GuardAction.future_exception_set])
               else Except.ok [])
             else Except.ok ([] : List GuardAction)) with
      | .error e => .error e
      | .ok acts2 =>
        .ok (acts1 ++ acts2 ++ (if has_cb then [GuardAction.callback_invoked] else []))
    else .ok acts1

/-- Errors of the dependency expansion: the `CircularDependency` exception
(which names the requested root task) and fuel exhaustion of the model's
recursion counter (the Python recursion is bounded by the finite task set). -/
inductive GdoErr (α : Type) where
  | circular (task : α)
  | fuel
deriving DecidableEq

/-- The `for dep in needs` loop of `Basalt.get_dependency_order`
(`__main__.py` lines 1263-1295), with the recursive generator call inlined.
`g` maps a task name to its declared `needs`; `task` is the requested root
passed unchanged through the recursion; `ys` accumulates the yielded tasks and
`state` is the shared mutable visited list.  For each dependency `d`:
if `d == task` raise `CircularDependency(task)`; else if `d` is in `state`,
skip it; else recurse — the callee appends `d` to `state` (its `cur in state`
early return cannot fire, as the caller just checked `d` is not in `state`)
and iterates `needs(d)` — then yield `d` and append `d` to `state` again.
`find_task` is modelled as total: every name denotes a task.  The `fuel`
counter is a model artifact bounding the number of recursion steps (the
Python traversal is bounded by the finite task set); it is decremented on
every recursive call, so any sufficiently large value reproduces the run. -/
def get_dependency_order_loop {α : Type} [DecidableEq α] (g : α → List α) (task : α) :
    Nat → List α → List α → List α → Except (GdoErr α) (List α × List α)
  | 0, _, _, _ => .error .fuel
  | fuel + 1, ys, state, deps =>
    match deps with
    | [] => .ok (ys, state)
    | d :: rest =>
      if d = task then .error (.circular task)
      else if d ∈ state then get_dependency_order_loop g task fuel ys state rest
      else
        match get_dependency_order_loop g task fuel [] (state ++ [d]) (g d) with
        | .error e => .error e
        | .ok (ys1, st1) =>
          get_dependency_order_loop g task fuel (ys ++ ys1 ++ [d]) (st1 ++ [d]) rest

/-- Top-level call `get_dependency_order(to_task)` (`state is None` branch):
`state` starts empty, `cur = task`, no membership check and no append of the
root itself; the loop runs over `needs(task)`.  Returns the yielded order and
the final visited list. -/
def get_dependency_order {α : Type} [DecidableEq α] (g : α → List α) (task : α)
    (fuel : Nat) : Except (GdoErr α) (List α × List α) :=
  get_dependency_order_loop g task fuel [] [] (g task)

/-- `if x not in to_call: to_call.append(x)` (`__main__.py` lines 1573-1579). -/
def append_new {α : Type} [DecidableEq α] (acc : List α) (x : α) : List α :=
  if x ∈ acc then acc else acc ++ [x]

/-- The build-order expansion loop of `Basalt.main` (`__main__.py` lines
1555-1581): for each requested task, consume its dependency order, appending
each yielded task to `to_call` when absent, then append the requested task
itself when absent. -/
def expand_build_order {α : Type} [DecidableEq α] (g : α → List α) (fuel : Nat)
    (to_call roots : List α) : Except (GdoErr α) (List α) :=
  match roots with
  | [] => .ok to_call
  | root :: rest =>
    match get_dependency_order g root fuel with
    | .error e => .error e
    | .ok (ys, _st) =>
      expand_build_order g fuel (append_new (ys.foldl append_new to_call) root) rest

/-- A build order is dependency-respecting when, at every decomposition
`L = p ++ t :: s`, all declared dependencies of `t` occur in the prefix `p`. -/
def GoodOrder {α : Type} (g : α → List α) (L : List α) : Prop :=
  ∀ p t s, L = p ++ t :: s → ∀ d ∈ g t, d ∈ p

/-- Invariant relating the traversal's `state` list to the already-emitted
tasks `E` and the nodes `P` on the current visitation path. -/
def StateInv {α : Type} (state E P : List α) : Prop :=
  ∀ x, x ∈ state ↔ (x ∈ E ∨ x ∈ P)

/-- First index of an element in a list (length when absent). -/
def posOf {α : Type} [DecidableEq α] : List α → α → Nat
  | [], _ => 0
  | y :: t, x => if y = x then 0 else posOf t x + 1

/-- The induction statement for `get_dependency_order_loop` at a given fuel:
from a consistent `state`, a successful loop extends the emitted list to a
still dependency-respecting one, extends `state` by exactly the newly emitted
tasks, and leaves every processed dependency emitted. -/
def LoopSpecAt {α : Type} [DecidableEq α] (g : α → List α) (rank : α → Nat)
    (task : α) (fuel : Nat) : Prop :=
  ∀ (deps ys0 state E P : List α) (r : Nat) (ys st : List α),
    get_dependency_order_loop g task fuel ys0 state deps = .ok (ys, st) →
    StateInv state (E ++ ys0) P →
    GoodOrder g (E ++ ys0) →
    (∀ d ∈ deps, rank d < r) →
    (∀ p ∈ P, r ≤ rank p) →
    (∃ dl, ys = ys0 ++ dl ∧ (∀ x, x ∈ st ↔ (x ∈ state ∨ x ∈ dl))) ∧
    GoodOrder g (E ++ ys) ∧
    (∀ d ∈ deps, d ∈ E ++ ys)

/-- Model of `TaskLaunchMap` (`__main__.py` lines 580-647): the build order
list, the name-indexed map (modelled as an insertion-ordered association
list), and the finalized flag.  Proxies are identified by their task name. -/
structure TaskLaunchMap (α : Type) where
  build_order : List α
  launch_map : List (α × α)
  finalized : Bool
deriving DecidableEq

/-- Python dict assignment `m[k] = v`: replace in place when the key exists,
else append the pair. -/
def dict_set {α β : Type} [DecidableEq α] (m : List (α × β)) (k : α) (v : β) :
    List (α × β) :=
  if k ∈ m.map Prod.fst then m.map (fun p => if p.1 = k then (k, v) else p)
  else m ++ [(k, v)]

/-- The message of the `BoundValue` error raised by `create_task_proxy` on a
finalized map. -/
def launch_map_finalized_msg : String :=
  "BoundValue: Unable to add task to a finalized map"

/-- `TaskLaunchMap.create_task_proxy` (`__main__.py` lines 627-638): raise
`BoundValue` if the map is finalized; else construct the proxy, append it to
`build_order` and assign it under its task name in `launch_map`. -/
def TaskLaunchMap.create_task_proxy {α : Type} [DecidableEq α]
    (lm : TaskLaunchMap α) (task : α) : Except String (TaskLaunchMap α) :=
  if lm.finalized then .error launch_map_finalized_msg
  else .ok ⟨lm.build_order ++ [task], dict_set lm.launch_map task task, lm.finalized⟩

/-- `TaskLaunchMap.finalize` (`__main__.py` lines 640-647): returns False and
leaves the map unchanged when already finalized; else freezes the build order
and map and sets the flag, returning True. -/
def TaskLaunchMap.finalize {α : Type} (lm : TaskLaunchMap α) :
    Bool × TaskLaunchMap α :=
  if lm.finalized then (false, lm)
  else (true, ⟨lm.build_order, lm.launch_map, true⟩)

/-- The proxy-construction loop of `Basalt.main` (`__main__.py` lines
1600-1608): a fresh `TaskLaunchMap`, one `create_task_proxy` per entry of the
expanded build order, in order. -/
def build_launch_map {α : Type} [DecidableEq α] (order : List α) :
    Except String (TaskLaunchMap α) :=
  List.foldlM (fun lm t => TaskLaunchMap.create_task_proxy lm t)
    (TaskLaunchMap.mk [] [] false) order

/-- `inspect.getfullargspec` fields of a task function that `get_kwargs`
consults: positional parameter names, their trailing defaults, and the
keyword-only defaults.  `V` is the type of Python values. -/
structure FullArgSpec (V : Type) where
  args : List String
  defaults : List V
  kwonlydefaults : List (String × V)

/-- Provenance-tagged resolution result for one task-function parameter. -/
inductive ArgValue (V : Type) where
  | task_opt (v : V)
  | env_attr (v : V)
  | pos_default (v : V)
  | kwonly_default (v : V)
  | reserved_env
  | reserved_sh
  | reserved_future
deriving DecidableEq

/-- `getattr`-style lookup in an attribute association list. -/
def assoc_lookup {V : Type} (m : List (String × V)) (k : String) : Option V :=
  match m.find? (fun p => p.1 == k) with
  | some p => some p.2
  | none => none

/-- `first_default = (nr_funcargs - nr_defaults) if defaults else None`
(`__main__.py` line 337). -/
def first_default {V : Type} (fs : FullArgSpec V) : Option Nat :=
  if fs.defaults.isEmpty then none
  else some (fs.args.length - fs.defaults.length)

/-- The positional-default rule `elif first_default and n >= first_default:
default = defaults[n - first_default]` (`__main__.py` lines 370-372).  Note
the Python truthiness test: a `first_default` of `0` is falsy, so the rule is
skipped whenever every positional parameter has a default. -/
def pos_default_hit {V : Type} (fs : FullArgSpec V) (n : Nat) : Option V :=
  match first_default fs with
  | none => none
  | some fd =>
    if fd ≠ 0 ∧ fd ≤ n then fs.defaults.get? (n - fd) else none

/-- `TaskProxyBase.get_kwargs`, resolution of one parameter `arg` at position
`n` (`__main__.py` lines 346-389): (1) the per-task bucket under
`environment.options.<task_name>`; (2) a same-named attribute of the Paver
environment (`arg in dir(env)`); (3) the positional default (see
`pos_default_hit`); (4) the keyword-only defaults (guarded by their own
truthiness); (5) the reserved names `env`, `sh`, `future`; otherwise raise
`PavementError` (the missing-argument failure), carrying the parameter name. -/
def resolve_arg {V : Type} (task_opts : Option (List (String × V)))
    (env_vars : List String) (env_attr : String → V) (fs : FullArgSpec V)
    (n : Nat) (arg : String) : Except String (ArgValue V) :=
  match task_opts.bind (fun o => assoc_lookup o arg) with
  | some v => .ok (.task_opt v)
  | none =>
    if arg ∈ env_vars then .ok (.env_attr (env_attr arg))
    else
      match pos_default_hit fs n with
      | some v => .ok (.pos_default v)
      | none =>
        match (if fs.kwonlydefaults.isEmpty then none
               else assoc_lookup fs.kwonlydefaults arg) with
        | some v => .ok (.kwonly_default v)
        | none =>
          if arg = "env" then .ok .reserved_env
          else if arg = "sh" then .ok .reserved_sh
          else if arg = "future" then .ok .reserved_future
          else .error arg

/-- The `for n in range(0, nr_funcargs)` loop of `get_kwargs`: resolve each
positional parameter in order; the first unresolvable parameter raises. -/
def get_kwargs_loop {V : Type} (task_opts : Option (List (String × V)))
    (env_vars : List String) (env_attr : String → V) (fs : FullArgSpec V) :
    Nat → List String → Except String (List (String × ArgValue V))
  | _, [] => .ok []
  | n, arg :: rest =>
    match resolve_arg task_opts env_vars env_attr fs n arg with
    | .error e => .error e
    | .ok v =>
      match get_kwargs_loop task_opts env_vars env_attr fs (n + 1) rest with
      | .error e => .error e
      | .ok tl => .ok ((arg, v) :: tl)

/-- `TaskProxyBase.get_kwargs` (`__main__.py` lines 316-390). -/
def get_kwargs {V : Type} (task_opts : Option (List (String × V)))
    (env_vars : List String) (env_attr : String → V) (fs : FullArgSpec V) :
    Except String (List (String × ArgValue V)) :=
  get_kwargs_loop task_opts env_vars env_attr fs 0 fs.args

/-- Concrete graph for the undetected-cycle counterexample: task 0 needs 1,
task 1 needs 2, task 2 needs 1 — a cycle among the dependencies that does not
pass through the requested root 0. -/
def c4_g : Nat → List Nat :=
  fun t => if t = 0 then [1] else if t = 1 then [2] else if t = 2 then [1] else []

/-- Concrete two-task cycle: task 0 needs 1, task 1 needs 0. -/
def c4_g2 : Nat → List Nat :=
  fun t => if t = 0 then [1] else if t = 1 then [0] else []

/-- Reverse-dependent chain for the cascade counterexample:
rdeps(0) = {1}, rdeps(1) = {2}. -/
def c5_rdeps : Nat → List Nat :=
  fun n => if n = 0 then [1] else if n = 1 then [2] else []

/-- Direct reverse-dependents {1, 2} of task 0 (the A with {B, C} example). -/
def c5_rdeps_bc : Nat → List Nat :=
  fun n => if n = 0 then [1, 2] else []

/-- All run futures pending. -/
def c5_st : Nat → FutureState Unit Unit := fun _ => .pending

/-- Concrete chain graph for the build-order witness: 2 needs 1, 1 needs 0. -/
def c6_g : Nat → List Nat :=
  fun t => if t = 2 then [1] else if t = 1 then [0] else []

/-- A task function whose single positional parameter has a declared default:
`def t(x=1)`. -/
def c9_fs : FullArgSpec Nat :=
  ⟨["x"], [1], []⟩

/-- A task function with two positional parameters of which only the last has
a default: `def t(sh, x=1)`. -/
def c9_fs2 : FullArgSpec Nat :=
  ⟨["sh", "x"], [1], []⟩

theorem future_cancel_idem {ρ ε : Type u} (s : FutureState ρ ε) :
    future_cancel (future_cancel s) = future_cancel s := by
  cases s <;> rfl

theorem foldl_cancel_eval {α : Type} [DecidableEq α] {ρ ε : Type u} :
    ∀ (L : List α) (st : α → FutureState ρ ε) (x : α),
    (L.foldl (fun s r => set_fut s r (future_cancel (s r))) st) x =
      if x ∈ L then future_cancel (st x) else st x := by
  intro L
  induction L with
  | nil => intro st x; simp
  | cons r L2 ih =>
    intro st x
    rw [List.foldl_cons, ih]
    by_cases hxr : x = r
    · subst hxr
      by_cases hxL : x ∈ L2 <;> simp [hxL, set_fut, future_cancel_idem]
    · by_cases hxL : x ∈ L2 <;> simp [hxL, set_fut, hxr]

theorem cancel_rdeps_eval {α : Type} [DecidableEq α] {ρ ε : Type u}
    (rdeps : α → List α) (st : α → FutureState ρ ε) (p x : α) :
    cancel_rdeps rdeps st p x = if x ∈ rdeps p then future_cancel (st x) else st x :=
  foldl_cancel_eval (rdeps p) st x

/-- Claim C3, counterexample: the claim states `canRun()` is false whenever the
global handle is in ANY terminal state; but the code only tests
`exit_future.cancelled()`, so with the global handle Failed (terminal, not
cancelled) and no dependencies, `can_run` still returns true. -/
theorem c3_counterexample :
    ¬ (∀ (ex : FutureState Unit Unit) (deps : List (FutureState Unit Unit)),
        (can_run ex deps = false ↔
          (ex.is_done = true ∨ ∃ d ∈ deps, d.is_done = true))) := by
  intro hclaim
  exact absurd ((hclaim (.failed ()) []).2 (Or.inl rfl)) (by decide)

/-- Claim C3, amended: `can_run` returns false iff the global handle has been
CANCELLED (not: is terminal) or at least one declared dependency's completion
handle is in a terminal state; and the launch guard refuses to enter the task
body whenever the global or the proxy's own handle has been cancelled. -/
theorem c3_can_run_amended {ρ ε : Type u} (ex run : FutureState ρ ε)
    (deps : List (FutureState ρ ε)) :
    (can_run ex deps = false ↔
      (ex.is_cancelled = true ∨ ∃ d ∈ deps, d.is_done = true)) ∧
    ((ex.is_cancelled = true ∨ run.is_cancelled = true) →
      managed_context_enters ex run = false) := by
  constructor
  · cases hc : ex.is_cancelled
    · simp [can_run, hc, List.any_eq_true]
    · simp [can_run, hc]
  · intro h
    rcases h with h | h <;> simp [managed_context_enters, h]

theorem c3_witness :
    managed_context_enters (FutureState.cancelled : FutureState Unit Unit)
      FutureState.pending = false :=
  (c3_can_run_amended FutureState.cancelled FutureState.pending []).2 (Or.inl rfl)

/-- Claim C5, counterexample: the claim states cancellation cascades
transitively through reverse-dependents, but `cancel_rdeps` only cancels the
run futures of the DIRECT reverse-dependents, without recursing: with
rdeps(0) = {1} and rdeps(1) = {2}, cancelling task 0 with cascade leaves
task 2 pending. -/
theorem c5_counterexample :
    cancel c5_rdeps c5_st 0 true 2 = FutureState.pending ∧
    1 ∈ c5_rdeps 0 ∧ 2 ∈ c5_rdeps 1 := by
  refine ⟨rfl, ?_, ?_⟩ <;> simp [c5_rdeps]

/-- Claim C5, amended: `cancel` with cascade sets the proxy's own handle to
Cancelled (when pending) and cancels the handle of each DIRECT
reverse-dependent, without recursing further; in particular cancelling task 0
with reverse-dependents {1, 2} drives both to Cancelled, and a proxy whose own
handle is cancelled never enters its task body. -/
theorem c5_cancel_amended :
    (∀ (rdeps : Nat → List Nat) (st : Nat → FutureState Unit Unit) (p x : Nat),
      cancel rdeps st p true x =
        if x = p ∨ x ∈ rdeps p then future_cancel (st x) else st x) ∧
    cancel c5_rdeps_bc c5_st 0 true 1 = FutureState.cancelled ∧
    cancel c5_rdeps_bc c5_st 0 true 2 = FutureState.cancelled ∧
    (∀ ex : FutureState Unit Unit,
      managed_context_enters ex FutureState.cancelled = false) := by
  refine ⟨?_, rfl, rfl, ?_⟩
  · intro rdeps st p x
    show cancel_rdeps rdeps (set_fut st p (future_cancel (st p))) p x = _
    rw [cancel_rdeps_eval]
    by_cases hxp : x = p
    · subst hxp
      by_cases hxr : x ∈ rdeps x <;> simp [hxr, set_fut, future_cancel_idem]
    · by_cases hxr : x ∈ rdeps p <;> simp [hxr, set_fut, hxp]
  · intro ex; cases ex <;> rfl

/-- Claim C8: recording a failure whose deduplication token (task identity,
error kind, error args) is already in the Ledger leaves the Ledger unchanged;
`push_exception_info` is idempotent on duplicate tokens, and pushing the same
token twice into an empty Ledger yields exactly one entry. -/
theorem c8_push_idempotent {κ ε : Type} [DecidableEq κ] :
    ∀ (emap : List (κ × ε)) (k : κ) (e e2 : ε),
      (k ∈ emap.map Prod.fst → push_exception_info emap k e = emap) ∧
      push_exception_info (push_exception_info emap k e) k e2 =
        push_exception_info emap k e ∧
      push_exception_info (push_exception_info ([] : List (κ × ε)) k e) k e2 =
        [(k, e)] := by
  intro emap k e e2
  refine ⟨fun hk => by simp [push_exception_info, hk], ?_, ?_⟩
  · by_cases hk : k ∈ emap.map Prod.fst
    · simp [push_exception_info, hk]
    · simp [push_exception_info, hk]
  · simp [push_exception_info]

theorem c8_witness :
    push_exception_info [((0 : Nat), (0 : Nat))] 0 1 = [(0, 0)] :=
  (c8_push_idempotent [((0 : Nat), (0 : Nat))] 0 1 2).1 (by decide)

/-- Claim C2, code evaluation: `Basalt.stop_on_exception` returns True for
every option state — it never consults the continue-after-error flag — so a
task-body failure records its Ledger entry AND fails the pending global exit
future even when continue-after-error is set. -/
theorem c2_escalation_ignores_continue :
    (∀ opts : BasaltOptions, Basalt.stop_on_exception opts = true) ∧
    SyncTaskProxy.on_executor_exception (BasaltOptions.mk true)
        ([] : List (Nat × Nat)) 0 5 (FutureState.pending : FutureState Nat Nat)
        FutureState.pending 7 =
      ([(0, 5)], FutureState.failed 7, FutureState.failed 7) :=
  ⟨fun _ => rfl, rfl⟩

/-- Claim C1, code evaluation: `amain` does set the pending exit future to the
Ledger size; but `main` then returns `rc` from INSIDE the per-exception loop:
with 2 Ledger entries and an unfailed exit future it returns 1, not
`min 255 (2+1) = 3`, and with an empty Ledger (even when the exit future holds
an error) it falls off the end, returning Python None. -/
theorem c1_exit_code_eval :
    amain_set_exit_result (FutureState.pending : FutureState Nat Unit) 2 =
      FutureState.done 2 ∧
    main_exit_code (FutureState.done 2 : FutureState Nat Unit) [0, 1] = some 1 ∧
    (1 : Nat) ≠ min 255 (2 + 1) ∧
    main_exit_code (FutureState.failed () : FutureState Nat Unit) ([] : List Nat) =
      none ∧
    main_exit_code (FutureState.done 0 : FutureState Nat Unit) ([] : List Nat) =
      none :=
  ⟨rfl, rfl, by decide, rfl, rfl⟩

/-- Claim C9, code evaluation: for a task function whose positional parameters
ALL carry declared defaults (`def t(x=1)`), `first_default` is 0 — falsy in
the Python test `first_default and n >= first_default` — so the declared
default is skipped and the parameter fails with the missing-argument
`PavementError`; with at least one non-defaulted parameter
(`def t(sh, x=1)`) the very same rule fires and the default is used. -/
theorem c9_default_skipped_eval :
    get_kwargs none [] (fun _ => (0 : Nat)) c9_fs = .error "x" ∧
    c9_fs.defaults = [1] ∧
    first_default c9_fs = some 0 ∧
    get_kwargs none [] (fun _ => (0 : Nat)) c9_fs2 =
      .ok [("sh", .reserved_sh), ("x", .pos_default 1)] :=
  ⟨rfl, rfl, rfl, rfl⟩

/-- Claim C10, code evaluation: when recording a failure inside
`FutureManager.__exit__` itself fails — the trace log call raising with a
callback present, or `fut.set_exception` raising — the `except` fallback
unpacks the uncalled `sys.exc_info` function object and raises `TypeError`,
which propagates out of the guard instead of being swallowed; the normal
recording path performs log, set-exception and callback actions. -/
theorem c10_guard_error_propagates :
    futureManager_exit false true true false true true =
      .error .type_error_exc_info ∧
    futureManager_exit true true true false false true =
      .error .type_error_exc_info ∧
    futureManager_exit false true true false false true =
      .ok [.logged_trace, .future_exception_set, .callback_invoked] :=
  ⟨rfl, rfl, rfl⟩

theorem gdoLoop_circular_names_task {α : Type} [DecidableEq α]
    (g : α → List α) (task : α) :
    ∀ (fuel : Nat) (ys state deps : List α) (t : α),
    get_dependency_order_loop g task fuel ys state deps =
      .error (GdoErr.circular t) →
    t = task := by
  intro fuel
  induction fuel with
  | zero =>
    intro ys state deps t h
    simp [get_dependency_order_loop] at h
  | succ fuel ih =>
    intro ys state deps t h
    cases deps with
    | nil => simp [get_dependency_order_loop] at h
    | cons d rest =>
      simp only [get_dependency_order_loop] at h
      by_cases hdt : d = task
      · rw [if_pos hdt] at h
        simp only [Except.error.injEq, GdoErr.circular.injEq] at h
        exact h.symm
      · rw [if_neg hdt] at h
        by_cases hds : d ∈ state
        · rw [if_pos hds] at h
          exact ih _ _ _ _ h
        · rw [if_neg hds] at h
          rcases hcall : get_dependency_order_loop g task fuel [] (state ++ [d]) (g d)
            with e | ⟨ys1, st1⟩
          · simp only [hcall, Except.error.injEq] at h
            exact ih _ _ _ _ (h ▸ hcall)
          · simp only [hcall] at h
            exact ih _ _ _ _ h

theorem expand_circular_names_root {α : Type} [DecidableEq α] (g : α → List α) :
    ∀ (roots to_call : List α) (fuel : Nat) (t : α),
    expand_build_order g fuel to_call roots = .error (GdoErr.circular t) →
    t ∈ roots := by
  intro roots
  induction roots with
  | nil => intro to_call fuel t h; simp [expand_build_order] at h
  | cons root rest ih =>
    intro to_call fuel t h
    simp only [expand_build_order] at h
    rcases hroot : get_dependency_order g root fuel with e | ⟨ys, st⟩
    · simp only [hroot, Except.error.injEq] at h
      have : t = root :=
        gdoLoop_circular_names_task g root fuel [] [] (g root) t (h ▸ hroot)
      simp [this]
    · simp only [hroot] at h
      exact List.mem_cons_of_mem _ (ih _ _ _ h)

/-- Claim C4, counterexample: a dependency cycle reachable from the requested
task but not passing through it goes undetected: with task 0 needing 1, 1
needing 2 and 2 needing 1 (a cycle among the dependencies), expanding the
request [0] raises no `CircularDependency` and returns the order [2, 1, 0]. -/
theorem c4_counterexample :
    expand_build_order c4_g 20 [] [0] = .ok [2, 1, 0] ∧
    1 ∈ c4_g 0 ∧ 2 ∈ c4_g 1 ∧ 1 ∈ c4_g 2 := by
  refine ⟨rfl, ?_, ?_, ?_⟩ <;> simp [c4_g]

/-- Claim C4, amended: dependency expansion raises `CircularDependency` only
when a REQUESTED task itself is re-encountered among transitive dependencies
(any raised `CircularDependency` names a requested root, and detection happens
before any task runs); in particular the two-task cycle — 0 needs 1, 1 needs
0, requested as [0] — raises `CircularDependency` naming task 0.  Cycles
confined to the dependencies of a requested task are not detected. -/
theorem c4_cycle_detection_amended :
    (∀ (g : Nat → List Nat) (roots to_call : List Nat) (fuel : Nat) (t : Nat),
      expand_build_order g fuel to_call roots = .error (GdoErr.circular t) →
      t ∈ roots) ∧
    expand_build_order c4_g2 9 [] [0] = .error (.circular 0) :=
  ⟨fun g roots to_call fuel t h => expand_circular_names_root g roots to_call fuel t h,
   rfl⟩

theorem c4_witness :
    (0 : Nat) ∈ [0] ∧ expand_build_order c4_g2 9 [] [0] = .error (.circular 0) :=
  ⟨c4_cycle_detection_amended.1 c4_g2 [0] [] 9 0 c4_cycle_detection_amended.2,
   c4_cycle_detection_amended.2⟩

theorem mem_split_list {α : Type} (x : α) (L : List α) (h : x ∈ L) :
    ∃ p s, L = p ++ x :: s := by
  induction L with
  | nil => cases h
  | cons y t ih =>
    rcases List.mem_cons.mp h with rfl | h2
    · exact ⟨[], t, rfl⟩
    · rcases ih h2 with ⟨p, s, rfl⟩
      exact ⟨y :: p, s, rfl⟩

theorem append_singleton_split {α : Type} :
    ∀ (L : List α) (x : α) (p : List α) (t : α) (s : List α),
    L ++ [x] = p ++ t :: s →
    (∃ s2, L = p ++ t :: s2 ∧ s = s2 ++ [x]) ∨ (p = L ∧ t = x ∧ s = []) := by
  intro L
  induction L with
  | nil =>
    intro x p t s h
    cases p with
    | nil =>
      simp only [List.nil_append] at h
      obtain ⟨rfl, rfl⟩ := List.cons.inj h
      exact Or.inr ⟨rfl, rfl, rfl⟩
    | cons a q =>
      simp only [List.nil_append, List.cons_append] at h
      obtain ⟨rfl, h2⟩ := List.cons.inj h
      exact absurd h2.symm (by simp)
  | cons y L2 ih =>
    intro x p t s h
    cases p with
    | nil =>
      simp only [List.cons_append, List.nil_append] at h
      obtain ⟨rfl, rfl⟩ := List.cons.inj h
      exact Or.inl ⟨L2, rfl, rfl⟩
    | cons a q =>
      simp only [List.cons_append] at h
      obtain ⟨rfl, h2⟩ := List.cons.inj h
      rcases ih x q t s h2 with ⟨s2, hL, hs⟩ | ⟨hq, ht, hs⟩
      · exact Or.inl ⟨s2, by rw [hL]; rfl, hs⟩
      · exact Or.inr ⟨by rw [hq], ht, hs⟩

theorem goodOrder_nil {α : Type} (g : α → List α) : GoodOrder g [] := by
  intro p t s h d _
  exact absurd h (by simp)

theorem goodOrder_append_elem {α : Type} (g : α → List α) (L : List α) (x : α)
    (hL : GoodOrder g L) (hx : ∀ d ∈ g x, d ∈ L) : GoodOrder g (L ++ [x]) := by
  intro p t s h d hd
  rcases append_singleton_split L x p t s h with ⟨s2, hL2, _⟩ | ⟨hp, ht, _⟩
  · exact hL p t s2 hL2 d hd
  · subst hp
    subst ht
    exact hx d hd

theorem posOf_lt_length {α : Type} [DecidableEq α] :
    ∀ (L : List α) (x : α), x ∈ L → posOf L x < L.length := by
  intro L
  induction L with
  | nil => intro x h; cases h
  | cons y t ih =>
    intro x h
    by_cases hyx : y = x
    · simp [posOf, hyx]
    · have hx : x ∈ t := by
        rcases List.mem_cons.mp h with rfl | h2
        · exact absurd rfl hyx
        · exact h2
      have h2 := ih x hx
      simp only [posOf, if_neg hyx, List.length_cons]
      omega

theorem posOf_append_left {α : Type} [DecidableEq α] :
    ∀ (p s : List α) (x : α), x ∈ p → posOf (p ++ s) x = posOf p x := by
  intro p
  induction p with
  | nil => intro s x h; cases h
  | cons y t ih =>
    intro s x h
    by_cases hyx : y = x
    · simp [posOf, hyx]
    · have hx : x ∈ t := by
        rcases List.mem_cons.mp h with rfl | h2
        · exact absurd rfl hyx
        · exact h2
      simp [posOf, hyx, ih s x hx]

theorem posOf_append_right {α : Type} [DecidableEq α] :
    ∀ (p s : List α) (x : α), x ∉ p → posOf (p ++ s) x = p.length + posOf s x := by
  intro p
  induction p with
  | nil => intro s x _; simp
  | cons y t ih =>
    intro s x h
    have hyx : ¬ y = x := fun he => h (he ▸ List.mem_cons_self y t)
    have hx : x ∉ t := fun hm => h (List.mem_cons_of_mem y hm)
    have hrec := ih s x hx
    simp only [List.cons_append, posOf, if_neg hyx, List.length_cons,
      List.append_eq] at hrec ⊢
    omega

theorem goodOrder_posOf {α : Type} [DecidableEq α] (g : α → List α) (L : List α)
    (hG : GoodOrder g L) (hN : L.Nodup) :
    ∀ t ∈ L, ∀ d ∈ g t, posOf L d < posOf L t := by
  intro t ht d hd
  rcases mem_split_list t L ht with ⟨p, s, rfl⟩
  have hdp : d ∈ p := hG p t s rfl d hd
  have htp : t ∉ p := by
    intro hmem
    exact List.disjoint_of_nodup_append hN hmem (List.mem_cons_self t s)
  have h1 : posOf (p ++ t :: s) d = posOf p d := posOf_append_left p (t :: s) d hdp
  have h2 : posOf (p ++ t :: s) t = p.length + posOf (t :: s) t :=
    posOf_append_right p (t :: s) t htp
  have h3 : posOf (t :: s) t = 0 := by simp [posOf]
  have h4 : posOf p d < p.length := posOf_lt_length p d hdp
  omega

theorem mem_append_new {α : Type} [DecidableEq α] (L : List α) (x y : α) :
    y ∈ append_new L x ↔ (y ∈ L ∨ y = x) := by
  unfold append_new
  by_cases hx : x ∈ L
  · rw [if_pos hx]
    constructor
    · exact Or.inl
    · rintro (h | rfl)
      · exact h
      · exact hx
  · rw [if_neg hx]
    simp

theorem append_new_nodup {α : Type} [DecidableEq α] (L : List α) (x : α)
    (h : L.Nodup) : (append_new L x).Nodup := by
  unfold append_new
  by_cases hx : x ∈ L
  · rw [if_pos hx]; exact h
  · rw [if_neg hx]
    refine List.Nodup.append h (List.nodup_singleton x) ?_
    intro a ha hax
    rw [List.mem_singleton] at hax
    exact hx (hax ▸ ha)

theorem foldl_append_new_nodup {α : Type} [DecidableEq α] :
    ∀ (ys L : List α), L.Nodup → (ys.foldl append_new L).Nodup := by
  intro ys
  induction ys with
  | nil => intro L h; exact h
  | cons y t ih => intro L h; exact ih _ (append_new_nodup L y h)

theorem mem_foldl_append_new {α : Type} [DecidableEq α] :
    ∀ (ys L : List α) (x : α), x ∈ ys.foldl append_new L ↔ (x ∈ ys ∨ x ∈ L) := by
  intro ys
  induction ys with
  | nil => intro L x; simp
  | cons y t ih =>
    intro L x
    rw [List.foldl_cons, ih, mem_append_new]
    simp only [List.mem_cons]
    tauto

theorem expand_build_order_nodup {α : Type} [DecidableEq α] (g : α → List α) :
    ∀ (roots to_call : List α) (fuel : Nat) (order : List α),
    to_call.Nodup → expand_build_order g fuel to_call roots = .ok order →
    order.Nodup := by
  intro roots
  induction roots with
  | nil =>
    intro tc fuel order h hE
    simp only [expand_build_order, Except.ok.injEq] at hE
    exact hE ▸ h
  | cons root rest ih =>
    intro tc fuel order h hE
    simp only [expand_build_order] at hE
    rcases hroot : get_dependency_order g root fuel with e | ⟨ys, st⟩
    · simp [hroot] at hE
    · simp only [hroot] at hE
      exact ih _ _ _ (append_new_nodup _ _ (foldl_append_new_nodup ys tc h)) hE

set_option maxHeartbeats 1600000 in
theorem gdoLoop_spec {α : Type} [DecidableEq α] (g : α → List α) (rank : α → Nat)
    (hr : ∀ t, ∀ d ∈ g t, rank d < rank t) (task : α) :
    ∀ fuel, LoopSpecAt g rank task fuel := by
  intro fuel
  induction fuel with
  | zero =>
    intro deps ys0 state E P r ys st h
    simp [get_dependency_order_loop] at h
  | succ fuel ih =>
    intro deps ys0 state E P r ys st h hInv hGood hdeps hP
    cases deps with
    | nil =>
      simp only [get_dependency_order_loop, Except.ok.injEq, Prod.mk.injEq] at h
      obtain ⟨rfl, rfl⟩ := h
      refine ⟨⟨[], by simp, fun x => by simp⟩, hGood, by simp⟩
    | cons d rest =>
      simp only [get_dependency_order_loop] at h
      by_cases hdt : d = task
      · rw [if_pos hdt] at h
        exact absurd h (by simp)
      · rw [if_neg hdt] at h
        by_cases hds : d ∈ state
        · rw [if_pos hds] at h
          obtain ⟨⟨dl, hys, hst⟩, hG2, hD2⟩ :=
            ih rest ys0 state E P r ys st h hInv hGood
              (fun d2 hd2 => hdeps d2 (List.mem_cons_of_mem _ hd2)) hP
          refine ⟨⟨dl, hys, hst⟩, hG2, ?_⟩
          intro d2 hd2
          rcases List.mem_cons.mp hd2 with rfl | hd3
          · rcases (hInv d2).mp hds with hE | hPm
            · rw [hys]
              rcases List.mem_append.mp hE with h1 | h1
              · exact List.mem_append.mpr (Or.inl h1)
              · exact List.mem_append.mpr (Or.inr (List.mem_append.mpr (Or.inl h1)))
            · have h1 := hP d2 hPm
              have h2 := hdeps d2 (List.mem_cons_self _ _)
              omega
          · exact hD2 d2 hd3
        · rw [if_neg hds] at h
          rcases hcall : get_dependency_order_loop g task fuel [] (state ++ [d]) (g d)
            with e | ⟨ys1, st1⟩
          · simp [hcall] at h
          · simp only [hcall] at h
            have hInv1 : StateInv (state ++ [d]) ((E ++ ys0) ++ []) (d :: P) := by
              intro x
              have h2 := hInv x
              simp only [StateInv, List.mem_append, List.mem_cons,
                List.not_mem_nil, or_false] at h2 ⊢
              tauto
            have hGood1 : GoodOrder g ((E ++ ys0) ++ []) := by simpa using hGood
            have hP1 : ∀ p ∈ d :: P, rank d ≤ rank p := by
              intro p hp
              rcases List.mem_cons.mp hp with rfl | hp2
              · exact le_refl _
              · have h1 := hP p hp2
                have h2 := hdeps d (List.mem_cons_self _ _)
                omega
            obtain ⟨⟨dl1, hys1, hst1⟩, hGA, hDA⟩ :=
              ih (g d) [] (state ++ [d]) (E ++ ys0) (d :: P) (rank d) ys1 st1
                hcall hInv1 hGood1 (hr d) hP1
            simp only [List.nil_append] at hys1
            subst hys1
            have hInv2 : StateInv (st1 ++ [d]) (E ++ ((ys0 ++ ys1) ++ [d])) P := by
              intro x
              have h1 := hst1 x
              have h2 := hInv x
              simp only [List.mem_append, List.mem_cons, List.mem_singleton,
                List.not_mem_nil, or_false] at h1 h2 ⊢
              tauto
            have hGood2 : GoodOrder g (E ++ ((ys0 ++ ys1) ++ [d])) := by
              have hstep : GoodOrder g (((E ++ ys0) ++ ys1) ++ [d]) :=
                goodOrder_append_elem g ((E ++ ys0) ++ ys1) d hGA hDA
              have heq : ((E ++ ys0) ++ ys1) ++ [d] = E ++ ((ys0 ++ ys1) ++ [d]) := by
                simp [List.append_assoc]
              exact heq ▸ hstep
            obtain ⟨⟨dl2, hys2, hst2⟩, hGB, hDB⟩ :=
              ih rest ((ys0 ++ ys1) ++ [d]) (st1 ++ [d]) E P r ys st h hInv2 hGood2
                (fun d2 hd2 => hdeps d2 (List.mem_cons_of_mem _ hd2)) hP
            refine ⟨⟨ys1 ++ [d] ++ dl2, ?_, ?_⟩, hGB, ?_⟩
            · rw [hys2]
              simp [List.append_assoc]
            · intro x
              have h1 := hst2 x
              have h2 := hst1 x
              simp only [List.mem_append, List.mem_cons, List.mem_singleton,
                List.not_mem_nil, or_false] at h1 h2 ⊢
              tauto
            · intro d2 hd2
              rcases List.mem_cons.mp hd2 with rfl | hd3
              · rw [hys2]
                simp [List.mem_append]
              · exact hDB d2 hd3

theorem get_dependency_order_spec {α : Type} [DecidableEq α] (g : α → List α)
    (rank : α → Nat) (hr : ∀ t, ∀ d ∈ g t, rank d < rank t)
    (task : α) (fuel : Nat) (ys st : List α)
    (h : get_dependency_order g task fuel = .ok (ys, st)) :
    GoodOrder g ys ∧ (∀ d ∈ g task, d ∈ ys) := by
  obtain ⟨⟨dl, hys, hst⟩, hG, hD⟩ :=
    gdoLoop_spec g rank hr task fuel (g task) [] [] [] [] (rank task) ys st h
      (fun x => by simp) (goodOrder_nil g) (hr task)
      (fun p hp => absurd hp (List.not_mem_nil p))
  exact ⟨hG, hD⟩

theorem merge_good {α : Type} [DecidableEq α] (g : α → List α) :
    ∀ (ys pre tc : List α),
    GoodOrder g (pre ++ ys) → GoodOrder g tc → (∀ x ∈ pre, x ∈ tc) →
    GoodOrder g (ys.foldl append_new tc) := by
  intro ys
  induction ys with
  | nil => intro pre tc _ h2 _; exact h2
  | cons y t ih =>
    intro pre tc h1 h2 h3
    rw [List.foldl_cons]
    have hdep : ∀ d ∈ g y, d ∈ tc := by
      intro d hd
      exact h3 d (h1 pre y t rfl d hd)
    have h2b : GoodOrder g (append_new tc y) := by
      unfold append_new
      by_cases hy : y ∈ tc
      · rw [if_pos hy]; exact h2
      · rw [if_neg hy]; exact goodOrder_append_elem g tc y h2 hdep
    have h3b : ∀ x ∈ pre ++ [y], x ∈ append_new tc y := by
      intro x hx
      rw [mem_append_new]
      rcases List.mem_append.mp hx with h4 | h4
      · exact Or.inl (h3 x h4)
      · rw [List.mem_singleton] at h4
        exact Or.inr h4
    have h1b : GoodOrder g ((pre ++ [y]) ++ t) := by
      have heq : (pre ++ [y]) ++ t = pre ++ y :: t := by simp
      exact heq ▸ h1
    exact ih (pre ++ [y]) (append_new tc y) h1b h2b h3b

theorem goodOrder_append_new {α : Type} [DecidableEq α] (g : α → List α)
    (L : List α) (x : α) (hL : GoodOrder g L) (hx : ∀ d ∈ g x, d ∈ L) :
    GoodOrder g (append_new L x) := by
  by_cases h : x ∈ L
  · have he : append_new L x = L := if_pos h
    rw [he]
    exact hL
  · have he : append_new L x = L ++ [x] := if_neg h
    rw [he]
    exact goodOrder_append_elem g L x hL hx

theorem expand_build_order_good {α : Type} [DecidableEq α] (g : α → List α)
    (rank : α → Nat) (hr : ∀ t, ∀ d ∈ g t, rank d < rank t) :
    ∀ (roots tc : List α) (fuel : Nat) (order : List α),
    GoodOrder g tc → expand_build_order g fuel tc roots = .ok order →
    GoodOrder g order := by
  intro roots
  induction roots with
  | nil =>
    intro tc fuel order h hE
    simp only [expand_build_order, Except.ok.injEq] at hE
    exact hE ▸ h
  | cons root rest ih =>
    intro tc fuel order h hE
    simp only [expand_build_order] at hE
    rcases hroot : get_dependency_order g root fuel with e | ⟨ys, st⟩
    · simp [hroot] at hE
    · simp only [hroot] at hE
      obtain ⟨hGys, hDroot⟩ := get_dependency_order_spec g rank hr root fuel ys st hroot
      have h1 : GoodOrder g (ys.foldl append_new tc) :=
        merge_good g ys [] tc hGys h (fun x hx => absurd hx (List.not_mem_nil x))
      have h2 : GoodOrder g (append_new (ys.foldl append_new tc) root) := by
        refine goodOrder_append_new g _ root h1 ?_
        intro d hd
        exact (mem_foldl_append_new ys tc d).mpr (Or.inl (hDroot d hd))
      exact ih _ _ _ h2 hE

/-- Claim C6: for every dependency graph that is acyclic (witnessed by a rank
function strictly decreasing along declared dependencies) and every list of
requested tasks, a completed dependency expansion yields a build order in
which every declared dependency of every listed task occupies a strictly
earlier index than that task. -/
theorem c6_build_order_respects_deps {α : Type} [DecidableEq α]
    (g : α → List α) (rank : α → Nat)
    (hacyclic : ∀ t, ∀ d ∈ g t, rank d < rank t)
    (roots : List α) (fuel : Nat) (order : List α)
    (h : expand_build_order g fuel [] roots = .ok order) :
    ∀ t ∈ order, ∀ d ∈ g t, posOf order d < posOf order t := by
  have hG : GoodOrder g order :=
    expand_build_order_good g rank hacyclic roots [] fuel order (goodOrder_nil g) h
  have hN : order.Nodup :=
    expand_build_order_nodup g roots [] fuel order List.nodup_nil h
  exact goodOrder_posOf g order hG hN

theorem c6_witness :
    posOf [0, 1, 2] 1 < posOf [0, 1, 2] 2 := by
  have hacyc : ∀ t, ∀ d ∈ c6_g t, id d < id t := by
    intro t d hd
    by_cases h2 : t = 2
    · subst h2
      simp [c6_g] at hd
      subst hd
      decide
    · by_cases h1 : t = 1
      · subst h1
        simp [c6_g] at hd
        subst hd
        decide
      · simp [c6_g, h2, h1] at hd
  exact c6_build_order_respects_deps c6_g id hacyc [2] 9 [0, 1, 2] (by rfl) 2
    (by decide) 1 (by decide)

theorem dict_set_not_mem {α β : Type} [DecidableEq α] (m : List (α × β)) (k : α)
    (v : β) (h : k ∉ m.map Prod.fst) : dict_set m k v = m ++ [(k, v)] := by
  unfold dict_set
  rw [if_neg h]

theorem map_fst_diag {α : Type} :
    ∀ (l : List α), (l.map (fun t => (t, t))).map Prod.fst = l := by
  intro l
  induction l with
  | nil => rfl
  | cons a t ih => simp only [List.map_cons, ih]

theorem build_launch_map_aux {α : Type} [DecidableEq α] :
    ∀ (order : List α) (lm0 : TaskLaunchMap α),
    lm0.finalized = false →
    (∀ x ∈ order, x ∉ lm0.launch_map.map Prod.fst) →
    order.Nodup →
    List.foldlM (fun lm t => TaskLaunchMap.create_task_proxy lm t) lm0 order =
      Except.ok (TaskLaunchMap.mk (lm0.build_order ++ order)
        (lm0.launch_map ++ order.map (fun t => (t, t))) false) := by
  intro order
  induction order with
  | nil =>
    intro lm0 hf _ _
    obtain ⟨bo, m, fin⟩ := lm0
    simp only at hf
    subst hf
    simp only [List.foldlM_nil, List.map_nil, List.append_nil]
    rfl
  | cons t rest ih =>
    intro lm0 hf hnot hnd
    rw [List.foldlM_cons]
    have hcreate : TaskLaunchMap.create_task_proxy lm0 t =
        .ok (TaskLaunchMap.mk (lm0.build_order ++ [t])
          (lm0.launch_map ++ [(t, t)]) false) := by
      unfold TaskLaunchMap.create_task_proxy
      rw [if_neg (by simp [hf])]
      rw [dict_set_not_mem _ _ _ (hnot t (List.mem_cons_self _ _))]
      rw [hf]
    rw [hcreate]
    have hbind :
        (Except.ok (TaskLaunchMap.mk (lm0.build_order ++ [t])
            (lm0.launch_map ++ [(t, t)]) false) >>=
          fun b2 => List.foldlM (fun lm t2 => TaskLaunchMap.create_task_proxy lm t2) b2 rest) =
        List.foldlM (fun lm t2 => TaskLaunchMap.create_task_proxy lm t2)
          (TaskLaunchMap.mk (lm0.build_order ++ [t])
            (lm0.launch_map ++ [(t, t)]) false) rest := rfl
    rw [hbind]
    have hnd2 : rest.Nodup := (List.nodup_cons.mp hnd).2
    have htr : t ∉ rest := (List.nodup_cons.mp hnd).1
    have hnot2 : ∀ x ∈ rest,
        x ∉ (lm0.launch_map ++ [(t, t)]).map Prod.fst := by
      intro x hx
      rw [List.map_append]
      intro hmem
      rcases List.mem_append.mp hmem with h1 | h1
      · exact hnot x (List.mem_cons_of_mem _ hx) h1
      · simp only [List.map_cons, List.map_nil, List.mem_singleton] at h1
        exact htr (h1 ▸ hx)
    rw [ih (TaskLaunchMap.mk (lm0.build_order ++ [t])
      (lm0.launch_map ++ [(t, t)]) false) rfl hnot2 hnd2]
    simp

/-- Claim C7: the Launch Map is append-only before finalization and immutable
after: `create_task_proxy` on a finalized map raises `BoundValue`;
`finalize` sets the flag (and is a no-op returning False when already set);
building the map from a duplicate-free order gives a collision-free name map
whose size equals the build-order length; and the driver's expanded build
order is always duplicate-free. -/
theorem c7_launch_map_invariants :
    (∀ (lm : TaskLaunchMap Nat) (t : Nat), lm.finalized = true →
      lm.create_task_proxy t = .error launch_map_finalized_msg) ∧
    (∀ lm : TaskLaunchMap Nat, ((TaskLaunchMap.finalize lm).2).finalized = true ∧
      (lm.finalized = true → (TaskLaunchMap.finalize lm).1 = false)) ∧
    (∀ (order : List Nat) (lm : TaskLaunchMap Nat),
      order.Nodup → build_launch_map order = .ok lm →
      lm.build_order = order ∧ lm.launch_map.map Prod.fst = order ∧
      lm.build_order.length = lm.launch_map.length ∧
      (lm.launch_map.map Prod.fst).Nodup) ∧
    (∀ (g : Nat → List Nat) (fuel : Nat) (roots order : List Nat),
      expand_build_order g fuel [] roots = .ok order → order.Nodup) := by
  refine ⟨?_, ?_, ?_, ?_⟩
  · intro lm t hf
    unfold TaskLaunchMap.create_task_proxy
    rw [if_pos hf]
  · intro lm
    constructor
    · unfold TaskLaunchMap.finalize
      by_cases hf : lm.finalized = true
      · rw [if_pos hf]
        exact hf
      · rw [if_neg hf]
    · intro hf
      unfold TaskLaunchMap.finalize
      rw [if_pos hf]
  · intro order lm hnd hbuild
    have haux := build_launch_map_aux order (TaskLaunchMap.mk [] [] false) rfl
      (by simp) hnd
    unfold build_launch_map at hbuild
    rw [haux] at hbuild
    simp only [Except.ok.injEq, List.nil_append] at hbuild
    subst hbuild
    refine ⟨rfl, ?_, ?_, ?_⟩
    · exact map_fst_diag order
    · simp only [List.length_map]
    · rw [show (TaskLaunchMap.mk order (order.map (fun t => (t, t))) false).launch_map =
        order.map (fun t => (t, t)) from rfl, map_fst_diag]
      exact hnd
  · intro g fuel roots order h
    exact expand_build_order_nodup g roots [] fuel order List.nodup_nil h

theorem c7_witness :
    TaskLaunchMap.create_task_proxy (TaskLaunchMap.mk ([] : List Nat) [] true) 0 =
      .error launch_map_finalized_msg ∧
    (TaskLaunchMap.mk [0, 1] [(0, 0), (1, 1)] false).build_order.length =
      (TaskLaunchMap.mk [0, 1] [(0, 0), (1, 1)] false).launch_map.length := by
  constructor
  · exact c7_launch_map_invariants.1 (TaskLaunchMap.mk [] [] true) 0 rfl
  · exact (c7_launch_map_invariants.2.2.1 [0, 1]
      (TaskLaunchMap.mk [0, 1] [(0, 0), (1, 1)] false) (by decide) rfl).2.2.1
